import Mathlib

/-!
Verification of the fetcherjs request manager and memory cache.

The definitions below are a shallow embedding of the TypeScript sources
`src/fetcher/cache/memory/memoryCache.ts`, `src/fetcher/cache/memory/config.ts`
and `src/fetcher/manager/manager.ts`.  JavaScript objects used as string maps
(`Record<string, T>`) are embedded as insertion-ordered association lists;
`Date.now()` becomes an explicit `now : Int` argument; `undefined` optional
fields become `Option`.  All definitions model the production configuration
(`debug` unset / falsy): the debug-only `throw` statements are commented at the
point where the production code silently continues.
-/

namespace Fetcher

/-- Lookup in a JS-object-like association list: first binding wins
(bindings are kept unique by `setA`). -/
def lookupA {α : Type} (m : List (String × α)) (k : String) : Option α :=
  (m.find? (fun p => p.1 = k)).map (·.2)

/-- `obj[k] = v`: replace the binding in place when the key is present
(preserving insertion order, as JS objects do), otherwise append it. -/
def setA {α : Type} (m : List (String × α)) (k : String) (v : α) : List (String × α) :=
  if m.any (fun p => p.1 = k) then
    m.map (fun p => if p.1 = k then (k, v) else p)
  else
    m ++ [(k, v)]

/-- `delete obj[k]`. -/
def eraseA {α : Type} (m : List (String × α)) (k : String) : List (String × α) :=
  m.filter (fun p => ¬(p.1 = k))

theorem lookupA_setA_self {α : Type} (m : List (String × α)) (k : String) (v : α) :
    lookupA (setA m k v) k = some v := by
  unfold lookupA setA
  split
  · rename_i h
    induction m with
    | nil => simp at h
    | cons p rest ih =>
      by_cases hp : p.1 = k
      · simp [List.find?, hp]
      · simp only [List.any_cons] at h
        simp only [List.map_cons, if_neg hp]
        rw [List.find?_cons_of_neg _ (by simpa using hp)]
        exact ih (by simpa [hp] using h)
  · rename_i h
    induction m with
    | nil => simp [List.find?]
    | cons p rest ih =>
      simp only [List.any_cons, Bool.or_eq_true, decide_eq_true_eq] at h
      push_neg at h
      rw [List.cons_append, List.find?_cons_of_neg _ (by simpa using h.1)]
      exact ih (by simpa using h.2)

theorem lookupA_setA_ne {α : Type} (m : List (String × α)) (k k' : String) (v : α)
    (h : k' ≠ k) : lookupA (setA m k v) k' = lookupA m k' := by
  unfold lookupA setA
  split
  · rename_i hmem
    clear hmem
    induction m with
    | nil => simp
    | cons p rest ih =>
      by_cases hp : p.1 = k
      · subst hp
        rw [List.map_cons, if_pos rfl, List.find?_cons_of_neg _ (by simpa using h.symm),
          List.find?_cons_of_neg _ (by simpa using fun hc => h hc.symm)]
        exact ih
      · simp only [List.map_cons, if_neg hp]
        by_cases hp' : p.1 = k'
        · rw [List.find?_cons_of_pos _ (by simpa using hp'),
            List.find?_cons_of_pos _ (by simpa using hp')]
        · rw [List.find?_cons_of_neg _ (by simpa using hp'),
            List.find?_cons_of_neg _ (by simpa using hp')]
          exact ih
  · rename_i hmem
    clear hmem
    induction m with
    | nil => simp [List.find?, h.symm]
    | cons p rest ih =>
      by_cases hp' : p.1 = k'
      · rw [List.cons_append, List.find?_cons_of_pos _ (by simpa using hp'),
          List.find?_cons_of_pos _ (by simpa using hp')]
      · rw [List.cons_append, List.find?_cons_of_neg _ (by simpa using hp'),
          List.find?_cons_of_neg _ (by simpa using hp')]
        exact ih

/-! ## Memory cache (`src/fetcher/cache/memory/memoryCache.ts`) -/

/-- One cache entry, `MemoryCacheRecord<T>` from `cache/memory/config.ts`.
The optional `tags?: Tag[]` field is embedded as a plain list, with `[]`
standing for `undefined` (both make every tag loop a no-op). -/
structure MemRecord (V : Type) where
  value : V
  expiresAt : Option Int
  staleAt : Option Int
  ttl : Option Int
  staleTTL : Option Int
  tags : List String
deriving Repr, DecidableEq

/-- The slice of `MemoryCacheConfig` the embedded operations read, with the
values of `defaultMemoryCacheConfig` (`cache/memory/config.ts`) as defaults.
`debug` is not carried: the model is the production path; each debug-only
`throw` is noted in a comment where the production code continues silently. -/
structure CacheCfg where
  defaultTTL : Int := 60 * 5 * 1000
  defaultStaleTTL : Option Int := some (60 * 5 * 1000)
deriving Repr, DecidableEq

/-- `defaultMemoryCacheConfig`: both TTL defaults are five minutes. -/
def defaultMemoryCacheConfig : CacheCfg := {}

/-- The mutable closure state of `createMemoryCache`: the `cache`, `tags` and
`locks` objects.  (`subs` and the GC timer flag carry no data the claims
touch; notifications are modelled where needed at the manager level.) -/
structure CacheState (V : Type) where
  cache : List (String × MemRecord V) := []
  tags : List (String × List String) := []
  locks : List String := []
deriving Repr, DecidableEq

/-- `addTags(key, ts)`: push `key` onto each tag's key list (creating the
list when absent).  In debug mode the source throws when the key is already
present; in production it pushes a duplicate. -/
def addTags {V : Type} (s : CacheState V) (key : String) (ts : List String) : CacheState V :=
  ts.foldl
    (fun acc t =>
      let existing := (lookupA acc.tags t).getD []
      { acc with tags := setA acc.tags t (existing ++ [key]) })
    s

/-- `removeTags(key)`.  Note the source looks up `existing.indexOf(t)` — it
searches the key list for the *tag* `t`, not for `key`.  The model keeps that
behaviour: the entry removed (if any) is the first occurrence of `t` in the
key list.  In debug mode the miss throws `Inconsistent state`; in production
it continues. -/
def removeTags {V : Type} (s : CacheState V) (key : String) : CacheState V :=
  match lookupA s.cache key with
  | none => s
  | some rec =>
    rec.tags.foldl
      (fun acc t =>
        match lookupA acc.tags t with
        | none => acc
        | some existing =>
          if t ∈ existing then
            let existing' := existing.erase t
            if existing' = [] then { acc with tags := eraseA acc.tags t }
            else { acc with tags := setA acc.tags t existing' }
          else
            -- debug mode: throw `Inconsistent state, tag doesn't exist for key`
            acc)
      s

/-- `removeRecord(key)`. -/
def removeRecord {V : Type} (s : CacheState V) (key : String) : CacheState V :=
  let s := removeTags s key
  { s with cache := eraseA s.cache key, locks := s.locks.erase key }

/-- The record built by `set(key, value, ttl, staleTTL, ..., tags)`: the
`actualTTL` / `actualStaleTTL` / `fullTTL` / `expiresAt` / `staleAt`
computation of the source, verbatim. -/
def mkRecord {V : Type} (cfg : CacheCfg) (value : V) (ttl staleTTL : Option Int)
    (ts : List String) (now : Int) : MemRecord V :=
  let actualTTL := ttl.getD cfg.defaultTTL
  let staleDefaulted := match staleTTL with
    | some st => some st
    | none => cfg.defaultStaleTTL
  -- `actualStaleTTL < 0` resets it to undefined (debug mode would throw)
  let actualStaleTTL := match staleDefaulted with
    | some st => if st < 0 then none else some st
    | none => none
  let fullTTL := match staleDefaulted with
    | some st => if st < 0 then actualTTL else actualTTL + st
    | none => actualTTL
  let expiresAt := if actualTTL ≥ 0 then some (now + fullTTL) else none
  let staleAt := match actualStaleTTL with
    | some st => if st ≥ 0 then some (now + actualTTL) else none
    | none => none
  { value := value, expiresAt := expiresAt, staleAt := staleAt,
    ttl := ttl, staleTTL := staleTTL, tags := ts }

/-- `set(key, value, ttl, staleTTL, skipNotify, tags)` (notification elided;
`skipNotify` only gates a subscriber callback). -/
def cacheSet {V : Type} (cfg : CacheCfg) (s : CacheState V) (key : String) (value : V)
    (ttl staleTTL : Option Int) (ts : List String) (now : Int) : CacheState V :=
  let s := { s with cache := setA s.cache key (mkRecord cfg value ttl staleTTL ts now) }
  addTags s key ts

/-- `getState(key)`: `undefined` when absent, or expired and unlocked;
otherwise the value paired with the stale flag (`false` embeds the absent
`stale` field). -/
def getState {V : Type} (s : CacheState V) (key : String) (now : Int) : Option (V × Bool) :=
  match lookupA s.cache key with
  | none => none
  | some r =>
    let expired : Bool := match r.expiresAt with
      | some e => decide (now ≥ e) && !(s.locks.contains key)
      | none => false
    if expired then none
    else
      let stale : Bool := match r.staleAt with
        | some st => decide (now ≥ st)
        | none => false
      if stale then some (r.value, true) else some (r.value, false)

/-- `get(key)`. -/
def cacheGet {V : Type} (s : CacheState V) (key : String) (now : Int) : Option V :=
  (getState s key now).map (·.1)

/-- `has(key)`: `key in cache`, no staleness or expiry check. -/
def cacheHas {V : Type} (s : CacheState V) (key : String) : Bool :=
  (lookupA s.cache key).isSome

/-- `clear(key)`: returns whether a record was removed (`Clear` notification
elided). -/
def cacheClear {V : Type} (s : CacheState V) (key : String) : CacheState V × Bool :=
  match lookupA s.cache key with
  | none => (s, false)
  | some _ => (removeRecord s key, true)

/-- `lock(key)`. -/
def cacheLock {V : Type} (s : CacheState V) (key : String) : CacheState V :=
  if key ∈ s.locks then s else { s with locks := s.locks ++ [key] }

/-- `unlock(key)` (GC rescheduling elided — the GC sweep is an explicit step
here). -/
def cacheUnlock {V : Type} (s : CacheState V) (key : String) : CacheState V :=
  { s with locks := s.locks.erase key }

/-- One `gc()` sweep: removes unlocked records past `expiresAt`, counts the
rest that still await expiry. -/
def cacheGC {V : Type} (s : CacheState V) (now : Int) : CacheState V × Int × Int :=
  (s.cache.map Prod.fst).foldl
    (fun (acc : CacheState V × Int × Int) k =>
      let (st, awaiting, cleaned) := acc
      match lookupA st.cache k with
      | none => acc
      | some v =>
        match v.expiresAt with
        | none => acc
        | some e =>
          if k ∈ st.locks then acc
          else if e > now then (st, awaiting + 1, cleaned)
          else (removeRecord st k, awaiting, cleaned + 1))
    (s, 0, 0)

/-- `TagMatch`. -/
inductive TagMatch | all | any | none
deriving Repr, DecidableEq

/-- `findByTags(tags, match, check?)`. -/
def findByTags {V : Type} (s : CacheState V) (ts : List String) (m : TagMatch)
    (check : Option (String → Bool)) : List String :=
  if ts = [] then []
  else
    let res : List String :=
      match m with
      | .all =>
        let first := (lookupA s.tags ts.head!).getD []
        (ts.drop 1).foldl
          (fun acc t =>
            let next := (lookupA s.tags t).getD []
            acc.filter (fun r => r ∈ next))
          first
      | .any =>
        -- keys are accumulated as JS object properties: first-insertion order,
        -- duplicates collapsed
        ts.foldl
          (fun acc t =>
            ((lookupA s.tags t).getD []).foldl
              (fun acc2 k => if k ∈ acc2 then acc2 else acc2 ++ [k]) acc)
          []
      | .none =>
        (s.cache.map Prod.fst).filter (fun k =>
          let val := ((lookupA s.cache k).map (·.tags)).getD []
          (ts.filter (fun t => ¬(t ∈ val))).length = ts.length)
    match check with
    | some c => res.filter c
    | Option.none => res

/-- `clearByTags(tags, match, check?)`: clears every collected key, returns
how many were collected. -/
def clearByTags {V : Type} (s : CacheState V) (ts : List String) (m : TagMatch)
    (check : Option (String → Bool)) : CacheState V × Int :=
  let collected := findByTags s ts m check
  (collected.foldl (fun acc k => (cacheClear acc k).1) s, collected.length)

/-! ### Basic cache lemmas -/

theorem addTags_cache {V : Type} (s : CacheState V) (key : String) (ts : List String) :
    (addTags s key ts).cache = s.cache := by
  induction ts generalizing s with
  | nil => rfl
  | cons t rest ih => simpa [addTags, List.foldl] using ih _

theorem addTags_locks {V : Type} (s : CacheState V) (key : String) (ts : List String) :
    (addTags s key ts).locks = s.locks := by
  induction ts generalizing s with
  | nil => rfl
  | cons t rest ih => simpa [addTags, List.foldl] using ih _

theorem cacheSet_lookup_self {V : Type} (cfg : CacheCfg) (s : CacheState V) (key : String)
    (value : V) (ttl staleTTL : Option Int) (ts : List String) (now : Int) :
    lookupA (cacheSet cfg s key value ttl staleTTL ts now).cache key
      = some (mkRecord cfg value ttl staleTTL ts now) := by
  unfold cacheSet
  rw [addTags_cache]
  exact lookupA_setA_self ..

theorem cacheSet_locks {V : Type} (cfg : CacheCfg) (s : CacheState V) (key : String)
    (value : V) (ttl staleTTL : Option Int) (ts : List String) (now : Int) :
    (cacheSet cfg s key value ttl staleTTL ts now).locks = s.locks := by
  unfold cacheSet
  rw [addTags_locks]

theorem mkRecord_explicit_nonneg {V : Type} (cfg : CacheCfg) (value : V) (T S : Int)
    (ts : List String) (now : Int) (hT : 0 ≤ T) (hS : 0 ≤ S) :
    mkRecord cfg value (some T) (some S) ts now
      = { value := value, expiresAt := some (now + (T + S)), staleAt := some (now + T),
          ttl := some T, staleTTL := some S, tags := ts } := by
  unfold mkRecord
  simp only [Option.getD_some]
  have h1 : ¬(S < 0) := by omega
  have h2 : T ≥ 0 := hT
  have h3 : S ≥ 0 := hS
  simp [h1, h2, h3]

theorem mkRecord_negative_ttl {V : Type} (cfg : CacheCfg) (value : V) (T : Int)
    (stl : Option Int) (ts : List String) (now : Int) (hT : T < 0) :
    (mkRecord cfg value (some T) stl ts now).expiresAt = none := by
  unfold mkRecord
  have : ¬(T ≥ 0) := by omega
  cases stl <;> simp [this]

/-- C1 — Setting a value with `ttl = T ≥ 0` and `staleTTL = S ≥ 0` makes
`getState` at offset `t` from the set report the value fresh on `[0, T)`,
the value stale on `[T, T + S)`, and nothing at or after `T + S` when the
key is not locked; and a set with `ttl < 0` stores no `expiresAt` and the
entry never expires (every read still finds it). -/
theorem claim_C1_ttl_staleTTL_windows {V : Type} (cfg : CacheCfg) (s : CacheState V)
    (k : String) (v : V) (tgs : List String) (n0 T S t : Int)
    (hT : 0 ≤ T) (hS : 0 ≤ S) :
    (t < T → 0 ≤ t →
      getState (cacheSet cfg s k v (some T) (some S) tgs n0) k (n0 + t) = some (v, false)) ∧
    (T ≤ t → t < T + S →
      getState (cacheSet cfg s k v (some T) (some S) tgs n0) k (n0 + t) = some (v, true)) ∧
    (T + S ≤ t → ¬(k ∈ s.locks) →
      getState (cacheSet cfg s k v (some T) (some S) tgs n0) k (n0 + t) = none) ∧
    (∀ (T' : Int) (stl : Option Int), T' < 0 →
      ∃ r, lookupA (cacheSet cfg s k v (some T') stl tgs n0).cache k = some r ∧
        r.expiresAt = none ∧
        ∀ t' : Int, (getState (cacheSet cfg s k v (some T') stl tgs n0) k t').isSome) := by
  have hlook := cacheSet_lookup_self cfg s k v (some T) (some S) tgs n0
  have hrec := mkRecord_explicit_nonneg cfg v T S tgs n0 hT hS
  refine ⟨?_, ?_, ?_, ?_⟩
  · intro h1 h0
    unfold getState
    rw [hlook, hrec]
    have hne : ¬(n0 + t ≥ n0 + (T + S)) := by omega
    have hns : ¬(n0 + t ≥ n0 + T) := by omega
    simp [hne, hns]
  · intro h1 h2
    unfold getState
    rw [hlook, hrec]
    have hne : ¬(n0 + t ≥ n0 + (T + S)) := by omega
    have hns : n0 + t ≥ n0 + T := by omega
    simp [hne, hns]
  · intro h1 hlocks
    have hml : (cacheSet cfg s k v (some T) (some S) tgs n0).locks = s.locks :=
      cacheSet_locks ..
    have hlocks' : s.locks.contains k = false := by simpa using hlocks
    unfold getState
    rw [hlook, hrec]
    have hne : n0 + t ≥ n0 + (T + S) := by omega
    simp [hne, hml, hlocks', hlocks]
  · intro T' stl hT'
    have hlook' := cacheSet_lookup_self cfg s k v (some T') stl tgs n0
    refine ⟨mkRecord cfg v (some T') stl tgs n0, hlook',
      mkRecord_negative_ttl cfg v T' stl tgs n0 hT', ?_⟩
    intro t'
    simp only [getState, hlook']
    rw [mkRecord_negative_ttl cfg v T' stl tgs n0 hT']
    cases hst : (mkRecord cfg v (some T') stl tgs n0).staleAt <;> simp [hst]
    split <;> simp

theorem claim_C1_ttl_staleTTL_windows_witness :
    (0 : Int) ≤ 100 ∧ (0 : Int) ≤ 50 ∧
      getState (cacheSet defaultMemoryCacheConfig ({} : CacheState Nat) "k" 7
        (some 100) (some 50) [] 0) "k" (0 + 120) = some (7, true) :=
  ⟨by decide, by decide,
    (claim_C1_ttl_staleTTL_windows defaultMemoryCacheConfig {} "k" 7 [] 0 100 50 120
      (by decide) (by decide)).2.1 (by decide) (by decide)⟩

/-- C9 — With `ttl < 0` and an applicable `staleTTL ≥ 0` (explicit, or the
five-minute config default), `set` stores no `expiresAt` but a `staleAt` of
`now + ttl`, already in the past, so every subsequent `getState` returns the
value flagged stale: a "never expires" entry is permanently stale. -/
theorem claim_C9_negative_ttl_permanently_stale {V : Type} (s : CacheState V)
    (k : String) (v : V) (tgs : List String) (n0 T : Int) (stl : Option Int) (S : Int)
    (hT : T < 0)
    (hS : (match stl with
            | some s' => some s'
            | none => defaultMemoryCacheConfig.defaultStaleTTL) = some S)
    (hS0 : 0 ≤ S) :
    ∃ r, lookupA (cacheSet defaultMemoryCacheConfig s k v (some T) stl tgs n0).cache k
        = some r ∧
      r.expiresAt = none ∧ r.staleAt = some (n0 + T) ∧ n0 + T < n0 ∧
      ∀ t : Int, 0 ≤ t →
        getState (cacheSet defaultMemoryCacheConfig s k v (some T) stl tgs n0) k (n0 + t)
          = some (v, true) := by
  have hlook := cacheSet_lookup_self defaultMemoryCacheConfig s k v (some T) stl tgs n0
  have hrec : mkRecord defaultMemoryCacheConfig v (some T) stl tgs n0
      = { value := v, expiresAt := none, staleAt := some (n0 + T),
          ttl := some T, staleTTL := stl, tags := tgs } := by
    have hT' : ¬(T ≥ 0) := by omega
    cases stl with
    | none =>
      have hd : defaultMemoryCacheConfig.defaultStaleTTL = some S := hS
      simp [mkRecord, hd, hT', show ¬(S < 0) by omega, show S ≥ 0 from hS0]
    | some s' =>
      have hs : s' = S := by simpa using hS
      simp [mkRecord, hT', hs, show ¬(S < 0) by omega, show S ≥ 0 from hS0]
  refine ⟨_, hlook, ?_, ?_, by omega, ?_⟩
  · rw [hrec]
  · rw [hrec]
  · intro t ht
    unfold getState
    rw [hlook, hrec]
    have : n0 + t ≥ n0 + T := by omega
    simp [this]

theorem claim_C9_negative_ttl_permanently_stale_witness :
    getState (cacheSet defaultMemoryCacheConfig ({} : CacheState Nat) "k" 7
        (some (-1)) none [] 0) "k" (0 + 0) = some (7, true) := by
  obtain ⟨r, hlook, hexp, hstale, hpast, hall⟩ :=
    claim_C9_negative_ttl_permanently_stale ({} : CacheState Nat) "k" 7 [] 0 (-1)
      none (60 * 5 * 1000) (by decide) (by decide) (by decide)
  exact hall 0 (by decide)

/-- C10 — An unlocked entry past `expiresAt` that no sweep has removed yet is
still reported by `has` while `getState` and `get` return nothing: `has`
ignores expiry, so `has = true` does not imply a readable value. -/
theorem claim_C10_has_ignores_expiry {V : Type} (s : CacheState V) (k : String)
    (r : MemRecord V) (e now : Int)
    (hlook : lookupA s.cache k = some r)
    (hexp : r.expiresAt = some e) (hpast : e ≤ now)
    (hunlocked : ¬(k ∈ s.locks)) :
    cacheHas s k = true ∧ getState s k now = none ∧ cacheGet s k now = none := by
  have hc : s.locks.contains k = false := by simpa using hunlocked
  have hgs : getState s k now = none := by
    simp only [getState, hlook, hexp]
    simp [hc, hunlocked, show now ≥ e by omega]
  refine ⟨?_, hgs, ?_⟩
  · unfold cacheHas
    rw [hlook]
    rfl
  · unfold cacheGet
    rw [hgs]
    rfl

theorem claim_C10_has_ignores_expiry_witness :
    cacheHas (⟨[("k", ⟨5, some 10, some 4, some 10, some 0, []⟩)], [], []⟩ : CacheState Nat)
        "k" = true ∧
      getState (⟨[("k", ⟨5, some 10, some 4, some 10, some 0, []⟩)], [], []⟩ : CacheState Nat)
        "k" 11 = none ∧
      cacheGet (⟨[("k", ⟨5, some 10, some 4, some 10, some 0, []⟩)], [], []⟩ : CacheState Nat)
        "k" 11 = none :=
  claim_C10_has_ignores_expiry
    (⟨[("k", ⟨5, some 10, some 4, some 10, some 0, []⟩)], [], []⟩ : CacheState Nat) "k"
    ⟨5, some 10, some 4, some 10, some 0, []⟩ 10 11 (by decide) (by decide) (by decide)
    (by decide)

/-! ### C4: tag index / entry tag consistency -/

/-- The invariant claimed for the tag index: a key is listed under a tag
exactly when the cache holds a record for that key whose tags contain it. -/
def tagConsistent {V : Type} (s : CacheState V) : Prop :=
  ∀ t k, (k ∈ (lookupA s.tags t).getD []) ↔
    (∃ r, lookupA s.cache k = some r ∧ t ∈ r.tags)

/-- C4 — the invariant fails on the code: `removeTags` looks up
`existing.indexOf(t)`, searching the key list for the *tag* instead of the
key, so removing a record never removes its key from the tag index (unless
the key literally equals the tag).  After `set("k", 7, tags=["t"])` followed
by `clear("k")`, the index still lists `"k"` under `"t"` although the cache
no longer holds a record for `"k"`.  (In debug mode the same input makes
`removeTags` throw its own `Inconsistent state` error.) -/
theorem claim_C4_tag_index_inconsistency :
    lookupA ((cacheClear
        (cacheSet defaultMemoryCacheConfig ({} : CacheState Nat) "k" 7 none none ["t"] 0)
        "k").1.tags) "t" = some ["k"] ∧
    lookupA ((cacheClear
        (cacheSet defaultMemoryCacheConfig ({} : CacheState Nat) "k" 7 none none ["t"] 0)
        "k").1.cache) "k" = none ∧
    ¬ tagConsistent (cacheClear
        (cacheSet defaultMemoryCacheConfig ({} : CacheState Nat) "k" 7 none none ["t"] 0)
        "k").1 := by
  refine ⟨by decide, by decide, ?_⟩
  intro hcons
  have h1 : "k" ∈ (lookupA ((cacheClear
      (cacheSet defaultMemoryCacheConfig ({} : CacheState Nat) "k" 7 none none ["t"] 0)
      "k").1.tags) "t").getD [] := by decide
  obtain ⟨r, hr, _⟩ := (hcons "t" "k").mp h1
  rw [show lookupA ((cacheClear
      (cacheSet defaultMemoryCacheConfig ({} : CacheState Nat) "k" 7 none none ["t"] 0)
      "k").1.cache) "k" = none by decide] at hr
  exact Option.noConfusion hr

/-! ## Request manager (`src/fetcher/manager/manager.ts`)

The manager closure state (`pending`, `fetching`, `requests`, the cache and
the config) is embedded as `MState`; its externally triggered entry points
and the asynchronous resumptions become a step function over explicit
actions.  `Date.now()` is the explicit `now` field, advanced by `tick`
actions; a scheduled `setTimeout(pushQueue, ...)` firing — or any other
scheduler trigger — is the `push` action.  No batcher is registered in this
model, so `findBatcher` always returns `undefined` and `pushQueue` always
takes the single-request path with `batchAdjuster = 0` (batch execution is
modelled separately below).  Subscriber notification is modelled separately
as well; here state transitions append to an event log instead.  The
per-request hooks that the claims never exercise (`transform`, `validate`,
`equalityCheck`, `storage`) are left at their unset defaults: an unset
`equalityCheck` makes `finishRequestWithSuccess` treat every payload as
different and write it through. -/

/-- `retries?: number | true`. -/
inductive Retries
  | num (n : Int)
  | infinite
deriving Repr

/-- `retryDecay?: number | false | ((attempts, err) => number | false)`;
a function returning `false` is `func f` with `f attempts = none`. -/
inductive DecaySpec
  | num (n : Int)
  | halt
  | func (f : Nat → Option Int)

/-- `defaultRetryDecay = (attempts) => Math.min(2 ** attempts, 30) * 1000`. -/
def defaultRetryDecay : DecaySpec :=
  .func (fun attempts => some (min ((2 : Int) ^ attempts) 30 * 1000))

/-- The request options the manager branches on (`RequestOptions` from
`manager/request.ts`): `type: 'query' | 'mutation'` is the `isMutation`
flag. -/
structure ReqOpts where
  isMutation : Bool := false
  forced : Bool := false
  priority : Option Int := none
  retries : Option Retries := none
  retryDecay : Option DecaySpec := none
  delay : Option Int := none
  ttl : Option Int := none
  staleTTL : Option Int := none
  tags : List String := []

/-- A `Request` record (the `cancel` callback is represented by the effect
`cancel()` has on the bookkeeping; `error` keeps only presence). -/
structure ReqRec where
  opts : ReqOpts
  attempts : Nat := 0
  nextAttempt : Option Int := none
  hasError : Bool := false
  cancelled : Bool := false
  expired : Bool := false

/-- The `cfg.request` defaults the claims' code paths read. -/
structure ReqDefaults where
  retries : Option Retries := none
  retryDecay : Option DecaySpec := none
  ttl : Option Int := none
  staleTTL : Option Int := none

/-- `ManagerConfig` (cache construction config inlined). -/
structure MgrCfg where
  maxParallelRequests : Int := -1
  request : Option ReqDefaults := none
  cacheCfg : CacheCfg := defaultMemoryCacheConfig

/-- Log entries: the start of an async-function invocation
(`runSingleRequest` calling `req.r(...)`), a final-error notification
(`finishRequestWithError` with retries exhausted), and a success
notification. -/
inductive Ev
  | invoke (k : String) (t : Int)
  | finalError (k : String) (t : Int)
  | succeeded (k : String) (t : Int)
deriving Repr, DecidableEq

/-- The manager closure state. -/
structure MState where
  cfg : MgrCfg := {}
  now : Int := 0
  cache : CacheState Unit := {}
  pending : List String := []
  fetching : List String := []
  requests : List (String × ReqRec) := []
  events : List Ev := []

/-- `Number.MIN_SAFE_INTEGER`. -/
def minSafeInteger : Int := -(2 ^ 53 - 1)

/-- Effective numeric priority used by the `addPending` comparator:
unset priority is `Number.MIN_SAFE_INTEGER`. -/
def prioOf (o : ReqOpts) : Int := o.priority.getD minSafeInteger

/-- The comparator `addPending` passes to `pending.sort`: mutations first,
then descending numeric priority. -/
def pendingCmp (ra rb : ReqOpts) : Int :=
  if ra.isMutation && !rb.isMutation then -1
  else if rb.isMutation && !ra.isMutation then 1
  else prioOf rb - prioOf ra

/-- Options of the record registered for a pending key (the comparator
dereferences `requests[a].options`; a missing record would throw in debug
mode and crash in production — the default keeps the function total on
states the scheduler never reaches). -/
def optsOf (requests : List (String × ReqRec)) (k : String) : ReqOpts :=
  ((lookupA requests k).map (·.opts)).getD {}

/-- Key ordering derived from the comparator: `a` may sit before `b` when
`pendingCmp a b ≤ 0`. -/
def pendingLE (requests : List (String × ReqRec)) (a b : String) : Bool :=
  decide (pendingCmp (optsOf requests a) (optsOf requests b) ≤ 0)

/-- Stable insertion into a sorted list (the engine sort observed by the
tests is stable; insertion via `≤` preserves the original order of
equal-priority keys). -/
def orderedInsert (le : String → String → Bool) (x : String) :
    List String → List String
  | [] => [x]
  | y :: ys => if le x y then x :: y :: ys else y :: orderedInsert le x ys

/-- Stable sort by the `addPending` comparator. -/
def sortPending (le : String → String → Bool) : List String → List String
  | [] => []
  | x :: xs => orderedInsert le x (sortPending le xs)

/-- `addPending(key)`: push then sort by priority (notification elided). -/
def addPending (s : MState) (k : String) : MState :=
  { s with pending := sortPending (pendingLE s.requests) (s.pending ++ [k]) }

/-- `removePending(key, notify=false)` (production: a missing key is a
no-op; debug would throw). -/
def removePending (s : MState) (k : String) : MState :=
  { s with pending := s.pending.erase k }

/-- `removeFetching(key, notify=false)`. -/
def removeFetching (s : MState) (k : String) : MState :=
  { s with fetching := s.fetching.erase k }

/-- The concurrency-window test of `pushQueue` (with `batchAdjuster = 0`:
no batcher is registered in this model). -/
def queueFull (s : MState) : Bool :=
  decide (0 ≤ s.cfg.maxParallelRequests ∧
    (s.fetching.length : Int) ≥ s.cfg.maxParallelRequests)

/-- `retries` resolution in `finishRequestWithError`:
`options.retries ?? cfg.request?.retries ?? 0`. -/
def resolveRetries (cfg : MgrCfg) (o : ReqOpts) : Retries :=
  match o.retries with
  | some r => r
  | none =>
    match cfg.request with
    | some d => d.retries.getD (.num 0)
    | none => .num 0

/-- `retryDecay` resolution:
`options.retryDecay ?? cfg.request?.retryDecay ?? defaultRetryDecay`. -/
def resolveDecay (cfg : MgrCfg) (o : ReqOpts) : DecaySpec :=
  match o.retryDecay with
  | some d => d
  | none =>
    match cfg.request with
    | some d => d.retryDecay.getD defaultRetryDecay
    | none => defaultRetryDecay

/-- `typeof retryDecay === 'function' ? retryDecay(attempts, error) :
retryDecay` (`none` is the literal / returned `false`). -/
def evalDecay (d : DecaySpec) (attempts : Nat) : Option Int :=
  match d with
  | .num n => some n
  | .halt => none
  | .func f => f attempts

/-- The retry decision of `finishRequestWithError`, taken after `attempts`
has been incremented: `some t` retries no earlier than `t`; `none`
finalizes as an error. -/
def retryPlan (cfg : MgrCfg) (o : ReqOpts) (attempts : Nat) (now : Int) : Option Int :=
  let retries := resolveRetries cfg o
  let shouldRetry : Bool := match retries with
    | .infinite => true
    | .num n => decide (n ≥ (attempts : Int))
  if shouldRetry then
    match evalDecay (resolveDecay cfg o) attempts with
    | some d => some (now + d)
    | none => none
  else none

/-- `finishRequestWithError(key, req, error)`. -/
def finishRequestWithError (s : MState) (k : String) : MState :=
  match lookupA s.requests k with
  | none => s
  | some req =>
    let attempts' := req.attempts + 1
    let req1 := { req with attempts := attempts', hasError := true }
    match retryPlan s.cfg req.opts attempts' s.now with
    | some retryAt =>
      -- retry: `nextAttempt` is set, only `fetching` flips off; the key
      -- stays pending
      let req2 := { req1 with nextAttempt := some retryAt }
      let s := { s with requests := setA s.requests k req2 }
      removeFetching s k
    | none =>
      let s := { s with requests := setA s.requests k req1 }
      let s := removeFetching s k
      let s := removePending s k
      let s := if req1.opts.isMutation then { s with requests := eraseA s.requests k } else s
      { s with events := s.events ++ [.finalError k s.now] }

/-- `finishRequestWithSuccess(key, req, result)` with `equalityCheck`,
`transform` and `storage` unset: the payload is written through for
queries; mutations drop the record. -/
def finishRequestWithSuccess (s : MState) (k : String) : MState :=
  match lookupA s.requests k with
  | none => s
  | some req =>
    let s := removeFetching s k
    let s := removePending s k
    if !req.opts.isMutation then
      let ttl := match req.opts.ttl with
        | some t => some t
        | none => s.cfg.request.bind (·.ttl)
      let staleTTL := match req.opts.staleTTL with
        | some t => some t
        | none => s.cfg.request.bind (·.staleTTL)
      let cache' := cacheSet s.cfg.cacheCfg s.cache k () ttl staleTTL req.opts.tags s.now
      let s := { s with cache := cache' }
      { s with events := s.events ++ [.succeeded k s.now] }
    else
      let s := { s with requests := eraseA s.requests k }
      { s with events := s.events ++ [.succeeded k s.now] }

/-- The scan of `pushQueue` over the pending list: skip keys already
fetching or whose `nextAttempt` is in the future; otherwise start the
request (append to `fetching`, log the invocation — `runSingleRequest`
calls `req.r(...)` synchronously) and stop once the window is full. -/
def pushLoop (now : Int) : List String → MState → MState
  | [], s => s
  | p :: rest, s =>
    if p ∈ s.fetching then pushLoop now rest s
    else
      match lookupA s.requests p with
      | none => pushLoop now rest s
      | some pr =>
        if (match pr.nextAttempt with
            | some na => decide (na > now)
            | none => false) then
          pushLoop now rest s
        else
          let s' := { s with fetching := s.fetching ++ [p],
                             events := s.events ++ [.invoke p now] }
          if queueFull s' then s' else pushLoop now rest s'

/-- `pushQueue()` (wake-up timer elided: a later `push` action stands for
the scheduled re-invocation). -/
def pushQueue (s : MState) : MState :=
  if queueFull s then s else pushLoop s.now s.pending s

/-- `addRequest(key, req, initiate)` (production path: the debug duplicate
check is skipped). -/
def addRequest (s : MState) (k : String) (req : ReqRec) (initiate : Bool) : MState :=
  let s := { s with requests := setA s.requests k req }
  if initiate then pushQueue (addPending s k) else s

/-- `cancel(key)`: marks cancelled, drops the key from both queues, keeps a
query record only while the cache still has data for it, and re-pushes the
queue.  The early `return true` leaves a request that is neither pending
nor fetching untouched. -/
def cancelOp (s : MState) (k : String) : MState × Bool :=
  match lookupA s.requests k with
  | none => (s, false)
  | some req =>
    if req.cancelled then (s, false)
    else if ¬(k ∈ s.pending) ∧ ¬(k ∈ s.fetching) then (s, true)
    else
      let s := { s with requests := setA s.requests k { req with cancelled := true } }
      let s := removePending s k
      let s := removeFetching s k
      let s := if req.opts.isMutation || !(cacheHas s.cache k) then
                 { s with requests := eraseA s.requests k }
               else s
      (pushQueue s, true)

/-- `request(key, r, options, ...args)` (the returned `RequestState` is not
modelled; the claims are about the state transition). -/
def requestOp (s : MState) (k : String) (opts : ReqOpts) : MState :=
  let cacheValue := if !opts.isMutation then getState s.cache k s.now else none
  let record := lookupA s.requests k
  let isStale : Bool := (cacheValue.map (·.2)).getD false
  let liveInvalid : Bool := match record with
    | none => true
    | some r => r.cancelled || r.expired
  if (!opts.isMutation && (opts.forced || isStale)) || liveInvalid then
    let s := if record.isSome then (cancelOp s k).1 else s
    let wasRehydrated : Bool := record.isNone && cacheValue.isSome
    let initiate : Bool := !wasRehydrated || (!opts.isMutation && opts.forced) || isStale
    let newRec : ReqRec :=
      { opts := opts, attempts := 0,
        nextAttempt := opts.delay.map (fun d => s.now + d) }
    addRequest s k newRec initiate
  else s

/-- `updateConfig({maxParallelRequests})`: store and re-push. -/
def setMaxParallel (s : MState) (n : Int) : MState :=
  pushQueue { s with cfg := { s.cfg with maxParallelRequests := n } }

/-- External triggers and asynchronous resumptions. `settleOk`/`settleErr`
are the in-flight promise of `k` resolving/rejecting (or failing
validation); they apply only to a still-fetching, uncancelled record —
`runSingleRequest` discards results whose per-invocation `cancelled` flag
was raised, and `cancel` removes the key from `fetching` exactly when it
raises that flag. -/
inductive Act
  | request (k : String) (opts : ReqOpts)
  | settleOk (k : String)
  | settleErr (k : String)
  | push
  | cancel (k : String)
  | setMaxParallel (n : Int)
  | tick (d : Nat)

/-- Promise resumption of `runSingleRequest` (its trailing `pushQueue`
included). -/
def settle (s : MState) (k : String) (ok : Bool) : MState :=
  if k ∈ s.fetching then
    match lookupA s.requests k with
    | some req =>
      if req.cancelled then s
      else pushQueue (if ok then finishRequestWithSuccess s k
                      else finishRequestWithError s k)
    | none => s
  else s

/-- One externally observable step of the manager. -/
def step (s : MState) (a : Act) : MState :=
  match a with
  | .request k opts => requestOp s k opts
  | .settleOk k => settle s k true
  | .settleErr k => settle s k false
  | .push => pushQueue s
  | .cancel k => (cancelOp s k).1
  | .setMaxParallel n => setMaxParallel s n
  | .tick d => { s with now := s.now + d }

/-- A run of the manager. -/
def run (s : MState) (acts : List Act) : MState := acts.foldl step s

/-- Number of logged invocations of key `k`'s async function. -/
def invokes (evs : List Ev) (k : String) : Nat :=
  (evs.filter (fun e => match e with
    | .invoke k' _ => k' = k
    | _ => false)).length

/-- The keys of the logged invocations, in order. -/
def invokeOrder (evs : List Ev) : List String :=
  evs.filterMap (fun e => match e with
    | .invoke k _ => some k
    | _ => none)

/-- Does the action call `request` on key `k`?  (The only step that can
re-register a key as pending.) -/
def Act.isRequestFor (a : Act) (k : String) : Bool :=
  match a with
  | .request k' _ => k' = k
  | _ => false

/-! ### Sorting and map lemmas -/

theorem mem_orderedInsert (le : String → String → Bool) (x z : String) (l : List String) :
    z ∈ orderedInsert le x l ↔ z = x ∨ z ∈ l := by
  induction l with
  | nil => simp [orderedInsert]
  | cons y ys ih =>
    rw [orderedInsert]
    by_cases hxy : le x y = true
    · rw [if_pos hxy]
      simp
    · rw [if_neg hxy]
      simp only [List.mem_cons, ih]
      tauto

theorem mem_sortPending (le : String → String → Bool) (z : String) (l : List String) :
    z ∈ sortPending le l ↔ z ∈ l := by
  induction l with
  | nil => simp [sortPending]
  | cons y ys ih =>
    rw [sortPending, mem_orderedInsert]
    simp only [List.mem_cons, ih]

theorem orderedInsert_pairwise (le : String → String → Bool)
    (htot : ∀ a b, le a b = true ∨ le b a = true)
    (htrans : ∀ a b c, le a b = true → le b c = true → le a c = true)
    (x : String) (l : List String)
    (h : List.Pairwise (fun a b => le a b = true) l) :
    List.Pairwise (fun a b => le a b = true) (orderedInsert le x l) := by
  induction l with
  | nil => simp [orderedInsert]
  | cons y ys ih =>
    rw [List.pairwise_cons] at h
    obtain ⟨hy, hys⟩ := h
    rw [orderedInsert]
    by_cases hxy : le x y = true
    · rw [if_pos hxy]
      refine List.Pairwise.cons ?_ (List.Pairwise.cons hy hys)
      intro z hz
      rcases List.mem_cons.mp hz with hz | hz
      · exact hz ▸ hxy
      · exact htrans x y z hxy (hy z hz)
    · rw [if_neg hxy]
      refine List.Pairwise.cons ?_ (ih hys)
      intro z hz
      rcases (mem_orderedInsert le x z ys).mp hz with hz | hz
      · exact hz ▸ (htot x y).resolve_left hxy
      · exact hy z hz

theorem sortPending_pairwise (le : String → String → Bool)
    (htot : ∀ a b, le a b = true ∨ le b a = true)
    (htrans : ∀ a b c, le a b = true → le b c = true → le a c = true)
    (l : List String) :
    List.Pairwise (fun a b => le a b = true) (sortPending le l) := by
  induction l with
  | nil => simp [sortPending]
  | cons y ys ih => exact orderedInsert_pairwise le htot htrans y _ ih

theorem nodupKeys_setA {α : Type} (m : List (String × α)) (k : String) (v : α)
    (h : (m.map Prod.fst).Nodup) : ((setA m k v).map Prod.fst).Nodup := by
  unfold setA
  split
  · have hmap : ∀ (m' : List (String × α)),
        (m'.map (fun p => if p.1 = k then (k, v) else p)).map Prod.fst = m'.map Prod.fst := by
      intro m'
      induction m' with
      | nil => rfl
      | cons p rest ih =>
        by_cases hp : p.1 = k
        · simp [hp, ih]
        · simp [hp, ih]
    rw [hmap]
    exact h
  · rename_i hany
    have hmem : ¬(k ∈ m.map Prod.fst) := by
      intro hk
      apply hany
      rw [List.any_eq_true]
      obtain ⟨p, hp, hfst⟩ := List.mem_map.mp hk
      exact ⟨p, hp, by simp [hfst]⟩
    rw [List.map_append]
    simp only [List.map_cons, List.map_nil]
    rw [List.nodup_append]
    refine ⟨h, List.nodup_singleton _, ?_⟩
    intro a ha hb
    rw [List.mem_singleton] at hb
    exact hmem (hb ▸ ha)

theorem nodupKeys_eraseA {α : Type} (m : List (String × α)) (k : String)
    (h : (m.map Prod.fst).Nodup) : ((eraseA m k).map Prod.fst).Nodup := by
  unfold eraseA
  exact List.Nodup.sublist (List.Sublist.map Prod.fst (List.filter_sublist m)) h

/-! ### Machine projection lemmas -/

theorem pushLoop_requests (now : Int) (l : List String) (s : MState) :
    (pushLoop now l s).requests = s.requests := by
  induction l generalizing s with
  | nil => rfl
  | cons p rest ih =>
    rw [pushLoop]
    split
    · exact ih s
    · split
      · exact ih s
      · split
        · exact ih s
        · dsimp only
          split
          · rfl
          · exact ih _

theorem pushLoop_pending (now : Int) (l : List String) (s : MState) :
    (pushLoop now l s).pending = s.pending := by
  induction l generalizing s with
  | nil => rfl
  | cons p rest ih =>
    rw [pushLoop]
    split
    · exact ih s
    · split
      · exact ih s
      · split
        · exact ih s
        · dsimp only
          split
          · rfl
          · exact ih _

theorem pushLoop_now (now : Int) (l : List String) (s : MState) :
    (pushLoop now l s).now = s.now := by
  induction l generalizing s with
  | nil => rfl
  | cons p rest ih =>
    rw [pushLoop]
    split
    · exact ih s
    · split
      · exact ih s
      · split
        · exact ih s
        · dsimp only
          split
          · rfl
          · exact ih _

theorem pushQueue_requests (s : MState) : (pushQueue s).requests = s.requests := by
  unfold pushQueue
  split
  · rfl
  · exact pushLoop_requests ..

theorem pushQueue_pending (s : MState) : (pushQueue s).pending = s.pending := by
  unfold pushQueue
  split
  · rfl
  · exact pushLoop_pending ..

theorem invokes_append_invoke (evs : List Ev) (k k' : String) (t : Int) :
    invokes (evs ++ [.invoke k' t]) k = invokes evs k + (if k' = k then 1 else 0) := by
  unfold invokes
  rw [List.filter_append]
  by_cases h : k' = k
  · simp [h]
  · simp [h]

theorem invokes_append_finalError (evs : List Ev) (k k' : String) (t : Int) :
    invokes (evs ++ [.finalError k' t]) k = invokes evs k := by
  unfold invokes
  rw [List.filter_append]
  simp

theorem invokes_append_succeeded (evs : List Ev) (k k' : String) (t : Int) :
    invokes (evs ++ [.succeeded k' t]) k = invokes evs k := by
  unfold invokes
  rw [List.filter_append]
  simp

/-- `pushLoop` logs invocations only for keys drawn from its scan list. -/
theorem pushLoop_invokes_not_mem (now : Int) (l : List String) (s : MState)
    (k : String) (hk : ¬(k ∈ l)) :
    invokes (pushLoop now l s).events k = invokes s.events k := by
  induction l generalizing s with
  | nil => rfl
  | cons p rest ih =>
    have hpk : p ≠ k := fun h => hk (h ▸ List.mem_cons_self p rest)
    have hrest : ¬(k ∈ rest) := fun h => hk (List.mem_cons_of_mem p h)
    rw [pushLoop]
    split
    · exact ih s hrest
    · split
      · exact ih s hrest
      · split
        · exact ih s hrest
        · dsimp only
          split
          · simp [invokes_append_invoke, hpk]
          · rw [ih _ hrest]
            simp [invokes_append_invoke, hpk]

/-- A key absent from `pending` is never invoked by `pushQueue`. -/
theorem pushQueue_invokes_not_pending (s : MState) (k : String)
    (hk : ¬(k ∈ s.pending)) :
    invokes (pushQueue s).events k = invokes s.events k := by
  unfold pushQueue
  split
  · rfl
  · exact pushLoop_invokes_not_mem _ _ _ _ hk

/-! ### Step preservation lemmas: a key outside `pending` is never invoked -/

theorem not_mem_erase {l : List String} {k x : String} (h : ¬ k ∈ l) : ¬ k ∈ l.erase x :=
  fun hm => h (List.erase_subset x l hm)

theorem finishError_effects (s : MState) (k' k : String) (hp : ¬ k ∈ s.pending) :
    ¬ k ∈ (finishRequestWithError s k').pending ∧
      invokes (finishRequestWithError s k').events k = invokes s.events k := by
  unfold finishRequestWithError
  cases hlook : lookupA s.requests k' with
  | none => exact ⟨hp, rfl⟩
  | some req =>
    dsimp only
    cases hplan : retryPlan s.cfg req.opts (req.attempts + 1) s.now with
    | some retryAt =>
      dsimp only [removeFetching]
      exact ⟨hp, rfl⟩
    | none =>
      dsimp only [removePending, removeFetching]
      by_cases hmut : req.opts.isMutation = true
      · simp only [hmut, if_true]
        exact ⟨not_mem_erase hp, invokes_append_finalError ..⟩
      · simp only [if_neg hmut]
        exact ⟨not_mem_erase hp, invokes_append_finalError ..⟩

theorem finishSuccess_effects (s : MState) (k' k : String) (hp : ¬ k ∈ s.pending) :
    ¬ k ∈ (finishRequestWithSuccess s k').pending ∧
      invokes (finishRequestWithSuccess s k').events k = invokes s.events k := by
  unfold finishRequestWithSuccess
  cases hlook : lookupA s.requests k' with
  | none => exact ⟨hp, rfl⟩
  | some req =>
    dsimp only [removePending, removeFetching]
    by_cases hmut : req.opts.isMutation
    · simp only [hmut]
      exact ⟨not_mem_erase hp, invokes_append_succeeded ..⟩
    · simp only [Bool.not_eq_true] at hmut
      simp only [hmut]
      exact ⟨not_mem_erase hp, invokes_append_succeeded ..⟩

theorem settle_effects (s : MState) (k' k : String) (ok : Bool) (hp : ¬ k ∈ s.pending) :
    ¬ k ∈ (settle s k' ok).pending ∧
      invokes (settle s k' ok).events k = invokes s.events k := by
  unfold settle
  split
  · cases hlook : lookupA s.requests k' with
    | none => exact ⟨hp, rfl⟩
    | some req =>
      dsimp only
      by_cases hc : req.cancelled = true
      · simp only [hc, if_true]
        exact ⟨hp, by simp⟩
      · simp only [if_neg hc]
        cases ok with
        | false =>
          simp only [Bool.false_eq_true, if_false]
          have he := finishError_effects s k' k hp
          refine ⟨?_, ?_⟩
          · rw [pushQueue_pending]
            exact he.1
          · rw [pushQueue_invokes_not_pending _ _ he.1]
            exact he.2
        | true =>
          simp only [if_true]
          have he := finishSuccess_effects s k' k hp
          refine ⟨?_, ?_⟩
          · rw [pushQueue_pending]
            exact he.1
          · rw [pushQueue_invokes_not_pending _ _ he.1]
            exact he.2
  · exact ⟨hp, rfl⟩

theorem cancelOp_effects (s : MState) (k' k : String) (hp : ¬ k ∈ s.pending) :
    ¬ k ∈ (cancelOp s k').1.pending ∧
      invokes (cancelOp s k').1.events k = invokes s.events k := by
  unfold cancelOp
  split
  · exact ⟨hp, rfl⟩
  · split
    · exact ⟨hp, rfl⟩
    · split
      · exact ⟨hp, rfl⟩
      · dsimp only [removePending, removeFetching]
        split
        · refine ⟨?_, ?_⟩
          · rw [pushQueue_pending]
            exact not_mem_erase hp
          · exact pushQueue_invokes_not_pending _ _ (not_mem_erase hp)
        · refine ⟨?_, ?_⟩
          · rw [pushQueue_pending]
            exact not_mem_erase hp
          · exact pushQueue_invokes_not_pending _ _ (not_mem_erase hp)

theorem addRequest_effects (s : MState) (k' k : String) (req : ReqRec) (initiate : Bool)
    (hk : k' ≠ k) (hp : ¬ k ∈ s.pending) :
    ¬ k ∈ (addRequest s k' req initiate).pending ∧
      invokes (addRequest s k' req initiate).events k = invokes s.events k := by
  unfold addRequest
  split
  · dsimp only [addPending]
    have hnp : ¬ k ∈ sortPending
        (pendingLE (setA s.requests k' req)) (s.pending ++ [k']) := by
      rw [mem_sortPending]
      intro hmem
      rcases List.mem_append.mp hmem with hmem | hmem
      · exact hp hmem
      · exact hk (List.mem_singleton.mp hmem).symm
    refine ⟨?_, ?_⟩
    · rw [pushQueue_pending]
      exact hnp
    · exact pushQueue_invokes_not_pending _ _ hnp
  · exact ⟨hp, rfl⟩

theorem requestOp_effects (s : MState) (k' k : String) (opts : ReqOpts)
    (hk : k' ≠ k) (hp : ¬ k ∈ s.pending) :
    ¬ k ∈ (requestOp s k' opts).pending ∧
      invokes (requestOp s k' opts).events k = invokes s.events k := by
  unfold requestOp
  dsimp only
  split_ifs <;>
    first
    | exact ⟨hp, rfl⟩
    | exact addRequest_effects s k' k _ _ hk hp
    | (refine ⟨(addRequest_effects _ k' k _ _ hk (cancelOp_effects s k' k hp).1).1, ?_⟩
       exact (addRequest_effects _ k' k _ _ hk (cancelOp_effects s k' k hp).1).2.trans
         (cancelOp_effects s k' k hp).2)

theorem step_effects (s : MState) (a : Act) (k : String)
    (hp : ¬ k ∈ s.pending) (ha : a.isRequestFor k = false) :
    ¬ k ∈ (step s a).pending ∧ invokes (step s a).events k = invokes s.events k := by
  cases a with
  | request k' opts =>
    have hk : k' ≠ k := by
      simpa [Act.isRequestFor] using ha
    exact requestOp_effects s k' k opts hk hp
  | settleOk k' => exact settle_effects s k' k true hp
  | settleErr k' => exact settle_effects s k' k false hp
  | push =>
    refine ⟨?_, pushQueue_invokes_not_pending _ _ hp⟩
    rw [show (step s .push).pending = (pushQueue s).pending from rfl, pushQueue_pending]
    exact hp
  | cancel k' => exact cancelOp_effects s k' k hp
  | setMaxParallel n =>
    dsimp only [step, setMaxParallel]
    refine ⟨?_, pushQueue_invokes_not_pending _ _ hp⟩
    rw [pushQueue_pending]
    exact hp
  | tick d => exact ⟨hp, rfl⟩

theorem run_effects (s : MState) (acts : List Act) (k : String)
    (hp : ¬ k ∈ s.pending) (ha : ∀ a ∈ acts, a.isRequestFor k = false) :
    ¬ k ∈ (run s acts).pending ∧ invokes (run s acts).events k = invokes s.events k := by
  induction acts generalizing s with
  | nil => exact ⟨hp, rfl⟩
  | cons a rest ih =>
    have h1 := step_effects s a k hp (ha a (List.mem_cons_self a rest))
    have h2 := ih (step s a) h1.1 (fun b hb => ha b (List.mem_cons_of_mem a hb))
    exact ⟨h2.1, h2.2.trans h1.2⟩

/-! ### Key uniqueness of the request registry -/

theorem finishError_nodup (s : MState) (k' : String)
    (h : (s.requests.map Prod.fst).Nodup) :
    (((finishRequestWithError s k').requests).map Prod.fst).Nodup := by
  unfold finishRequestWithError
  cases hlook : lookupA s.requests k' with
  | none => exact h
  | some req =>
    dsimp only
    cases hplan : retryPlan s.cfg req.opts (req.attempts + 1) s.now with
    | some retryAt =>
      dsimp only [removeFetching]
      exact nodupKeys_setA _ _ _ h
    | none =>
      dsimp only [removePending, removeFetching]
      split
      · exact nodupKeys_eraseA _ _ (nodupKeys_setA _ _ _ h)
      · exact nodupKeys_setA _ _ _ h

theorem finishSuccess_nodup (s : MState) (k' : String)
    (h : (s.requests.map Prod.fst).Nodup) :
    (((finishRequestWithSuccess s k').requests).map Prod.fst).Nodup := by
  unfold finishRequestWithSuccess
  cases hlook : lookupA s.requests k' with
  | none => exact h
  | some req =>
    dsimp only [removePending, removeFetching]
    split
    · exact h
    · exact nodupKeys_eraseA _ _ h

theorem cancelOp_nodup (s : MState) (k' : String)
    (h : (s.requests.map Prod.fst).Nodup) :
    (((cancelOp s k').1.requests).map Prod.fst).Nodup := by
  unfold cancelOp
  cases hlook : lookupA s.requests k' with
  | none => exact h
  | some req =>
    dsimp only
    split
    · exact h
    · split
      · exact h
      · dsimp only [removePending, removeFetching]
        split
        · rw [pushQueue_requests]
          exact nodupKeys_eraseA _ _ (nodupKeys_setA _ _ _ h)
        · rw [pushQueue_requests]
          exact nodupKeys_setA _ _ _ h

theorem addRequest_nodup (s : MState) (k' : String) (req : ReqRec) (initiate : Bool)
    (h : (s.requests.map Prod.fst).Nodup) :
    (((addRequest s k' req initiate).requests).map Prod.fst).Nodup := by
  unfold addRequest
  split
  · rw [pushQueue_requests]
    dsimp only [addPending]
    exact nodupKeys_setA _ _ _ h
  · exact nodupKeys_setA _ _ _ h

theorem requestOp_nodup (s : MState) (k' : String) (opts : ReqOpts)
    (h : (s.requests.map Prod.fst).Nodup) :
    (((requestOp s k' opts).requests).map Prod.fst).Nodup := by
  unfold requestOp
  dsimp only
  split_ifs <;>
    first
    | exact h
    | exact addRequest_nodup _ _ _ _ h
    | exact addRequest_nodup _ _ _ _ (cancelOp_nodup s k' h)

theorem settle_nodup (s : MState) (k' : String) (ok : Bool)
    (h : (s.requests.map Prod.fst).Nodup) :
    (((settle s k' ok).requests).map Prod.fst).Nodup := by
  unfold settle
  split
  · cases hlook : lookupA s.requests k' with
    | none => exact h
    | some req =>
      dsimp only
      by_cases hc : req.cancelled = true
      · simp only [hc, if_true]
        exact h
      · simp only [if_neg hc]
        cases ok with
        | false =>
          simp only [Bool.false_eq_true, if_false]
          rw [pushQueue_requests]
          exact finishError_nodup s k' h
        | true =>
          simp only [if_true]
          rw [pushQueue_requests]
          exact finishSuccess_nodup s k' h
  · exact h

theorem step_nodup (s : MState) (a : Act)
    (h : (s.requests.map Prod.fst).Nodup) :
    (((step s a).requests).map Prod.fst).Nodup := by
  cases a with
  | request k' opts => exact requestOp_nodup s k' opts h
  | settleOk k' => exact settle_nodup s k' true h
  | settleErr k' => exact settle_nodup s k' false h
  | push =>
    rw [show (step s .push).requests = (pushQueue s).requests from rfl, pushQueue_requests]
    exact h
  | cancel k' => exact cancelOp_nodup s k' h
  | setMaxParallel n =>
    dsimp only [step, setMaxParallel]
    rw [pushQueue_requests]
    exact h
  | tick d => exact h

theorem run_nodup (s : MState) (acts : List Act)
    (h : (s.requests.map Prod.fst).Nodup) :
    (((run s acts).requests).map Prod.fst).Nodup := by
  induction acts generalizing s with
  | nil => exact h
  | cons a rest ih => exact ih (step s a) (step_nodup s a h)

/-- C2 — the request registry is a keyed map, so each key holds at most one
record, and every step preserves that; and a second `request` call for a key
whose record is live (not cancelled, not expired), with an unforced query
and no stale cached value, is a complete no-op on the manager state: no new
record is created and the async function is not invoked again. -/
theorem claim_C2_request_dedup (s : MState) (k : String) (opts : ReqOpts) (rec : ReqRec)
    (hrec : lookupA s.requests k = some rec)
    (hcanc : rec.cancelled = false) (hexp : rec.expired = false)
    (hq : opts.isMutation = false) (hf : opts.forced = false)
    (hstale : (getState s.cache k s.now).map (·.2) ≠ some true) :
    requestOp s k opts = s ∧
      ∀ acts : List Act, (s.requests.map Prod.fst).Nodup →
        ((run s acts).requests.map Prod.fst).Nodup := by
  refine ⟨?_, fun acts h => run_nodup s acts h⟩
  have hb : ((getState s.cache k s.now).map (·.2)).getD false = false := by
    cases hgs : getState s.cache k s.now with
    | none => rfl
    | some vb =>
      rw [hgs] at hstale
      cases hvb : vb.2
      · simp [hvb]
      · exact absurd (by simp [hvb]) hstale
  unfold requestOp
  simp [hq, hf, hrec, hcanc, hexp, hb]

theorem claim_C2_request_dedup_witness :
    requestOp (run {} [.request "k" {}]) "k" {} = run {} [.request "k" {}] ∧
      invokes (run {} [.request "k" {}]).events "k" = 1 :=
  ⟨(claim_C2_request_dedup (run {} [.request "k" {}]) "k" {}
      ⟨{}, 0, none, false, false, false⟩ rfl rfl rfl rfl rfl (by decide)).1,
    by rfl⟩

/-- C8 — `cancel(key)` on a request whose delay-produced `nextAttempt` is
still in the future and which never entered `fetching` prevents its async
function from ever being invoked: across every subsequent action sequence
that does not `request` the key again, the number of logged invocations of
the key never grows. -/
theorem claim_C8_cancel_before_fetch (s : MState) (k : String) (rec : ReqRec) (na : Int)
    (hrec : lookupA s.requests k = some rec) (hcanc : rec.cancelled = false)
    (hpend : k ∈ s.pending) (hnodup : s.pending.Nodup) (hfetch : ¬ k ∈ s.fetching)
    (hna : rec.nextAttempt = some na) (hfut : s.now < na)
    (acts : List Act) (hacts : ∀ a ∈ acts, a.isRequestFor k = false) :
    invokes (run ((cancelOp s k).1) acts).events k = invokes s.events k := by
  have hkerase : ¬ k ∈ s.pending.erase k := by
    intro hm
    exact ((hnodup.mem_erase_iff).mp hm).1 rfl
  have hc : ¬ k ∈ (cancelOp s k).1.pending ∧
      invokes (cancelOp s k).1.events k = invokes s.events k := by
    unfold cancelOp
    rw [hrec]
    dsimp only
    simp only [hcanc, Bool.false_eq_true, if_false]
    rw [if_neg (by simp [hpend])]
    dsimp only [removePending, removeFetching]
    split
    · constructor
      · rw [pushQueue_pending]
        exact hkerase
      · exact pushQueue_invokes_not_pending _ _ hkerase
    · constructor
      · rw [pushQueue_pending]
        exact hkerase
      · exact pushQueue_invokes_not_pending _ _ hkerase
  exact (run_effects _ acts k hc.1 hacts).2.trans hc.2

theorem claim_C8_cancel_before_fetch_witness :
    invokes (run ((cancelOp (run {} [.request "k" { delay := some 100 }]) "k").1)
      [.tick 200, .push, .settleErr "k"]).events "k" = 0 :=
  (claim_C8_cancel_before_fetch (run {} [.request "k" { delay := some 100 }]) "k"
      ⟨{ delay := some 100 }, 0, some 100, false, false, false⟩ 100
      rfl rfl (by decide) (by decide) (by decide) rfl (by decide)
      [.tick 200, .push, .settleErr "k"] (by decide)).trans (by decide)

/-! ### C3: retry counting and pacing -/

/-- `pushQueue` never starts a key whose `nextAttempt` lies in the future. -/
theorem pushLoop_no_early_invoke (now : Int) (l : List String) (s : MState) (k : String)
    (r : ReqRec) (na : Int) (hr : lookupA s.requests k = some r)
    (hna : r.nextAttempt = some na) (hfut : now < na) :
    invokes (pushLoop now l s).events k = invokes s.events k := by
  induction l generalizing s with
  | nil => rfl
  | cons p rest ih =>
    rw [pushLoop]
    by_cases hpk : p = k
    · subst hpk
      split
      · exact ih s hr
      · rw [hr]
        dsimp only
        rw [hna]
        have hgt : (decide (na > now)) = true := by
          simp only [gt_iff_lt, decide_eq_true_eq]
          exact hfut
        dsimp only
        rw [if_pos hgt]
        exact ih s hr
    · split
      · exact ih s hr
      · cases hlp : lookupA s.requests p with
        | none => exact ih s hr
        | some pr =>
          dsimp only
          split
          · exact ih s hr
          · split
            · simp [invokes_append_invoke, hpk]
            · have hstep := ih { s with fetching := s.fetching ++ [p], events := s.events ++ [Ev.invoke p now] } hr
              rw [hstep]
              simp [invokes_append_invoke, hpk]

theorem pushQueue_no_early_invoke (s : MState) (k : String) (r : ReqRec) (na : Int)
    (hr : lookupA s.requests k = some r) (hna : r.nextAttempt = some na)
    (hfut : s.now < na) :
    invokes (pushQueue s).events k = invokes s.events k := by
  unfold pushQueue
  split
  · rfl
  · exact pushLoop_no_early_invoke s.now s.pending s k r na hr hna hfut

/-- C3 counterexample — a query configured with `retries = 3` and
`retryDecay = () => 50` whose every attempt fails makes FOUR invocations of
the async function before finalizing as an error, not three:
`finishRequestWithError` increments `attempts` first and retries while
`retries >= attempts`, so attempts 1, 2 and 3 each schedule another try. -/
theorem claim_C3_retries_three_counterexample :
    invokes (run ({} : MState)
      [.request "k" { retries := some (.num 3), retryDecay := some (.func fun _ => some 50) },
       .settleErr "k", .tick 50, .push, .settleErr "k", .tick 50, .push,
       .settleErr "k", .tick 50, .push, .settleErr "k"]).events "k" = 4 ∧
    (run ({} : MState)
      [.request "k" { retries := some (.num 3), retryDecay := some (.func fun _ => some 50) },
       .settleErr "k", .tick 50, .push, .settleErr "k", .tick 50, .push,
       .settleErr "k", .tick 50, .push, .settleErr "k"]).events
      = [.invoke "k" 0, .invoke "k" 50, .invoke "k" 100, .invoke "k" 150,
         .finalError "k" 150] := by
  constructor
  · decide
  · decide

/-- C3 (amended) — with `retries = 3` and `retryDecay = () => 50` and every
attempt failing, exactly FOUR total attempts (the initial attempt plus three
retries) are made before the request is finalized as an error: the retry
decision allows another attempt exactly while at most 3 attempts have
happened, scheduling it 50ms after the failure; the scheduler never starts
an attempt before `nextAttempt`, so each attempt after the first begins no
earlier than 50ms after the previous failure — as the exhibited run shows,
with attempts at 0, 50, 100 and 150ms and the error finalized at 150ms. -/
theorem claim_C3_retries_amended :
    (∀ (cfg : MgrCfg) (o : ReqOpts) (attempts : Nat) (now : Int),
      o.retries = some (.num 3) → o.retryDecay = some (.func fun _ => some 50) →
      retryPlan cfg o attempts now = if attempts ≤ 3 then some (now + 50) else none) ∧
    (∀ (s : MState) (k : String) (r : ReqRec) (na : Int),
      lookupA s.requests k = some r → r.nextAttempt = some na → s.now < na →
      invokes (pushQueue s).events k = invokes s.events k) ∧
    ((run ({} : MState)
      [.request "k" { retries := some (.num 3), retryDecay := some (.func fun _ => some 50) },
       .settleErr "k", .tick 50, .push, .settleErr "k", .tick 50, .push,
       .settleErr "k", .tick 50, .push, .settleErr "k"]).events
      = [.invoke "k" 0, .invoke "k" 50, .invoke "k" 100, .invoke "k" 150,
         .finalError "k" 150]) := by
  refine ⟨?_, ?_, by decide⟩
  · intro cfg o attempts now h1 h2
    unfold retryPlan resolveRetries resolveDecay evalDecay
    rw [h1, h2]
    dsimp only
    rcases le_or_lt attempts 3 with hle | hlt
    · have hc : ((3:Int) ≥ (attempts : Int)) := by exact_mod_cast hle
      simp [hc, hle]
    · have hc : ¬((3:Int) ≥ (attempts : Int)) := by
        simp only [ge_iff_le, not_le]
        exact_mod_cast hlt
      simp [hc, Nat.not_le.mpr hlt]
  · intro s k r na hr hna hfut
    exact pushQueue_no_early_invoke s k r na hr hna hfut

theorem claim_C3_retries_amended_witness :
    retryPlan {} { retries := some (.num 3), retryDecay := some (.func fun _ => some 50) }
        4 150 = none :=
  (claim_C3_retries_amended.1 {}
    { retries := some (.num 3), retryDecay := some (.func fun _ => some 50) }
    4 150 rfl rfl).trans (by decide)

/-! ### C5: priority ordering -/

theorem pendingCmp_swap (a b : ReqOpts) : pendingCmp b a = -pendingCmp a b := by
  unfold pendingCmp
  cases ha : a.isMutation <;> cases hb : b.isMutation <;> simp [ha, hb]

theorem pendingCmp_trans (a b c : ReqOpts)
    (h1 : pendingCmp a b ≤ 0) (h2 : pendingCmp b c ≤ 0) : pendingCmp a c ≤ 0 := by
  unfold pendingCmp at *
  cases ha : a.isMutation <;> cases hb : b.isMutation <;> cases hc : c.isMutation <;>
    simp [ha, hb, hc] at * <;> omega

theorem pendingLE_total (reqs : List (String × ReqRec)) (a b : String) :
    pendingLE reqs a b = true ∨ pendingLE reqs b a = true := by
  unfold pendingLE
  rcases le_or_lt (pendingCmp (optsOf reqs a) (optsOf reqs b)) 0 with h | h
  · left
    simpa using h
  · right
    have hs := pendingCmp_swap (optsOf reqs a) (optsOf reqs b)
    simp only [decide_eq_true_eq]
    omega

theorem pendingLE_trans (reqs : List (String × ReqRec)) (a b c : String)
    (h1 : pendingLE reqs a b = true) (h2 : pendingLE reqs b c = true) :
    pendingLE reqs a c = true := by
  unfold pendingLE at *
  simp only [decide_eq_true_eq] at *
  exact pendingCmp_trans _ _ _ h1 h2

/-- C5 — the `addPending` comparator puts every mutation before every query
regardless of numeric priority; within one class a higher numeric priority
sorts strictly first; an unset priority is the minimum integer
(`Number.MIN_SAFE_INTEGER`) and sorts last; the pending queue is sorted by
this comparator after every `addPending`; and under
`maxParallelRequests = 1`, three simultaneously-pending queries with
priorities default, 10 and 20 execute in the order 20, 10, default. -/
theorem claim_C5_priority_order :
    (∀ a b : ReqOpts, a.isMutation = true → b.isMutation = false → pendingCmp a b < 0) ∧
    (∀ a b : ReqOpts, a.isMutation = b.isMutation → prioOf b < prioOf a →
      pendingCmp a b < 0) ∧
    (∀ o : ReqOpts, o.priority = none → prioOf o = minSafeInteger) ∧
    (∀ a b : ReqOpts, a.isMutation = b.isMutation → a.priority = none →
      ∀ p : Int, b.priority = some p → minSafeInteger ≤ p → pendingCmp b a ≤ 0) ∧
    (∀ (s : MState) (k : String),
      List.Pairwise (fun a b => pendingLE s.requests a b = true) ((addPending s k).pending)) ∧
    (invokeOrder (run ({ cfg := { maxParallelRequests := 0 } } : MState)
      [.request "a" {}, .request "b" { priority := some 10 },
       .request "c" { priority := some 20 }, .setMaxParallel 1,
       .settleOk "c", .settleOk "b", .settleOk "a"]).events = ["c", "b", "a"]) := by
  refine ⟨?_, ?_, ?_, ?_, ?_, by decide⟩
  · intro a b ha hb
    unfold pendingCmp
    simp [ha, hb]
  · intro a b hclass hp
    unfold pendingCmp
    cases ha : a.isMutation <;> rw [ha] at hclass <;> simp [ha, ← hclass] <;> omega
  · intro o h
    unfold prioOf
    rw [h]
    rfl
  · intro a b hclass ha p hb hmin
    have hpa : prioOf a = minSafeInteger := by
      unfold prioOf
      rw [ha]
      rfl
    have hpb : prioOf b = p := by
      unfold prioOf
      rw [hb]
      rfl
    unfold pendingCmp
    cases hbm : b.isMutation <;> rw [hbm] at hclass <;> simp [hbm, hclass, hpa, hpb] <;>
      omega
  · intro s k
    unfold addPending
    dsimp only
    exact sortPending_pairwise _ (pendingLE_total s.requests)
      (pendingLE_trans s.requests) _

theorem claim_C5_priority_order_witness :
    pendingCmp { isMutation := true } { priority := some 99 } < 0 ∧
      pendingCmp { priority := some 20 } { priority := some 10 } < 0 ∧
      invokeOrder (run ({ cfg := { maxParallelRequests := 0 } } : MState)
        [.request "a" {}, .request "b" { priority := some 10 },
         .request "c" { priority := some 20 }, .setMaxParallel 1,
         .settleOk "c", .settleOk "b", .settleOk "a"]).events = ["c", "b", "a"] :=
  ⟨claim_C5_priority_order.1 _ _ rfl rfl,
    claim_C5_priority_order.2.1 _ _ rfl (by decide),
    claim_C5_priority_order.2.2.2.2.2⟩

/-! ## C6: batch execution contract (`runBatchedRequest`)

Pure model of the result processing of `runBatchedRequest`: the batcher's
promise either rejects or yields a result; a plain array (`direct` shape) is
wrapped element-wise into `{data: r, error: undefined}` entries, so a
literal `undefined` array element produces an entry with neither field.
The processing applies `finishRequestWithSuccess` / `finishRequestWithError`
per position; a thrown contract error (count mismatch, or an entry with
neither `data` nor `error`) is caught and applied as an error to every
bundled request. -/

/-- `BatcherResultRecord<T, E>`: `{data?, error?}`. -/
structure BatchEntry (V E : Type) where
  data : Option V
  error : Option E
deriving Repr, DecidableEq

/-- A batcher result: a plain array, or `{shape: 'extracted'|'direct',
data: [...]}` (`extracted = true` for the `'extracted'` shape). -/
inductive BatcherRes (V E : Type)
  | direct (rs : List (Option V))
  | shaped (extracted : Bool) (data : List (BatchEntry V E))
deriving Repr, DecidableEq

/-- What got applied to one bundled request: `failure none` is the thrown
batch-contract error (or the rejection reason), `failure (some e)` the
per-entry error. -/
inductive BatchFinal (V E : Type)
  | success (v : V)
  | failure (e : Option E)
deriving Repr, DecidableEq

/-- `catch`-branch effect: `reqs.forEach(r => finishRequestWithError(r.key,
r.req, err))`. -/
def allFail (V E : Type) (n : Nat) : List (Nat × BatchFinal V E) :=
  (List.range n).map (fun i => (i, .failure none))

/-- The entry list the loop iterates (`direct` wrapped, `shaped` as is). -/
def batchEntries {V E : Type} : BatcherRes V E → List (BatchEntry V E)
  | .direct rs => rs.map (fun v => ⟨v, none⟩)
  | .shaped _ data => data

/-- The `for` loop of `runBatchedRequest`: finalizations applied in order;
the Bool is false when the loop threw on an entry with neither `data` nor
`error`, abandoning the remaining entries. -/
def applyEntries {V E : Type} : Nat → List (BatchEntry V E) →
    List (Nat × BatchFinal V E) × Bool
  | _, [] => ([], true)
  | i, e :: rest =>
    match e.data with
    | some v =>
      let (evs, ok) := applyEntries (i + 1) rest
      ((i, .success v) :: evs, ok)
    | none =>
      match e.error with
      | some err =>
        let (evs, ok) := applyEntries (i + 1) rest
        ((i, .failure (some err)) :: evs, ok)
      | none => ([], false)

/-- The finalizations `runBatchedRequest` applies to the `n` bundled
requests, given the batcher's outcome. -/
def runBatchedResult {V E : Type} (n : Nat) (res : Except Unit (BatcherRes V E)) :
    List (Nat × BatchFinal V E) :=
  match res with
  | .error _ => allFail V E n
  | .ok r =>
    let entries := batchEntries r
    if entries.length ≠ n then allFail V E n
    else
      let (evs, ok) := applyEntries 0 entries
      if ok then evs else evs ++ allFail V E n

/-- The position-wise finalization of a well-formed entry. -/
def entryFinal {V E : Type} (e : BatchEntry V E) : BatchFinal V E :=
  match e.data with
  | some v => .success v
  | none => .failure e.error

theorem mem_allFail (V E : Type) (n i : Nat) (h : i < n) :
    (i, BatchFinal.failure none) ∈ allFail V E n := by
  unfold allFail
  exact List.mem_map.mpr ⟨i, List.mem_range.mpr h, rfl⟩

theorem applyEntries_malformed {V E : Type} (i : Nat) (l : List (BatchEntry V E))
    (h : ∃ e ∈ l, e.data = none ∧ e.error = none) :
    (applyEntries i l).2 = false := by
  induction l generalizing i with
  | nil => simp at h
  | cons e rest ih =>
    rcases h with ⟨e', he', hd, herr⟩
    rcases List.mem_cons.mp he' with he' | he'
    · subst he'
      rw [applyEntries, hd, herr]
    · rw [applyEntries]
      cases hd2 : e.data with
      | some v =>
        dsimp only
        rw [ih (i + 1) ⟨e', he', hd, herr⟩]
      | none =>
        cases herr2 : e.error with
        | some err =>
          dsimp only
          rw [ih (i + 1) ⟨e', he', hd, herr⟩]
        | none => rfl

theorem applyEntries_wellformed {V E : Type} (i : Nat) (l : List (BatchEntry V E))
    (h : ∀ e ∈ l, e.data.isSome ∨ e.error.isSome) :
    applyEntries i l = ((l.enumFrom i).map (fun p => (p.1, entryFinal p.2)), true) := by
  induction l generalizing i with
  | nil => rfl
  | cons e rest ih =>
    have he := h e (List.mem_cons_self e rest)
    have hrest : ∀ e' ∈ rest, e'.data.isSome ∨ e'.error.isSome :=
      fun e' h' => h e' (List.mem_cons_of_mem e h')
    rw [applyEntries]
    cases hd : e.data with
    | some v =>
      dsimp only
      rw [ih (i + 1) hrest]
      simp [List.enumFrom, entryFinal, hd]
    | none =>
      cases herr : e.error with
      | some err =>
        dsimp only
        rw [ih (i + 1) hrest]
        simp [List.enumFrom, entryFinal, hd, herr]
      | none =>
        rw [hd] at he
        rw [herr] at he
        simp at he

/-- C6 — batch contract: a rejected batcher promise, a result whose entry
count differs from the bundle size, or any entry with neither `data` nor
`error`, applies an error to every one of the `n` bundled requests;
otherwise entry `i` is applied to the request at position `i` — success for
`data`, per-request error for `error`. -/
theorem claim_C6_batch_contract {V E : Type} (n : Nat)
    (res : Except Unit (BatcherRes V E)) :
    ((match res with
      | .error _ => True
      | .ok r => (batchEntries r).length ≠ n ∨
          ∃ e ∈ batchEntries r, e.data = none ∧ e.error = none) →
      ∀ i, i < n → (i, BatchFinal.failure none) ∈ runBatchedResult n res) ∧
    (∀ r, res = .ok r → (batchEntries r).length = n →
      (∀ e ∈ batchEntries r, e.data.isSome ∨ e.error.isSome) →
      runBatchedResult n res
        = ((batchEntries r).enum.map (fun p => (p.1, entryFinal p.2)))) := by
  constructor
  · intro hbad i hi
    cases res with
    | error u => exact mem_allFail V E n i hi
    | ok r =>
      unfold runBatchedResult
      dsimp only
      by_cases hlen : (batchEntries r).length ≠ n
      · rw [if_pos hlen]
        exact mem_allFail V E n i hi
      · rw [if_neg hlen]
        rcases hbad with hbad | hbad
        · exact absurd hbad hlen
        · have hko := applyEntries_malformed 0 (batchEntries r) hbad
          rcases hsplit : applyEntries 0 (batchEntries r) with ⟨evs, ok⟩
          rw [hsplit] at hko
          dsimp at hko
          subst hko
          simp only [if_neg]
          exact List.mem_append_right _ (mem_allFail V E n i hi)
  · intro r hres hlen hwf
    subst hres
    unfold runBatchedResult
    dsimp only
    rw [if_neg (by omega)]
    rw [applyEntries_wellformed 0 (batchEntries r) hwf]
    rfl

theorem claim_C6_batch_contract_witness :
    runBatchedResult 2 (Except.ok (BatcherRes.shaped true
        [⟨some 7, none⟩, ⟨none, some "boom"⟩] : BatcherRes Nat String))
      = [(0, .success 7), (1, .failure (some "boom"))] ∧
    (0, BatchFinal.failure (none : Option String)) ∈
      runBatchedResult 1 (Except.error () : Except Unit (BatcherRes Nat String)) :=
  ⟨((claim_C6_batch_contract 2 _).2 _ rfl (by decide) (by decide)).trans (by decide),
    (claim_C6_batch_contract 1 _).1 trivial 0 (by decide)⟩

/-! ## C7: notification dispatch (`notifySubs`)

Pure model of one `notifySubs` call.  Listeners are identified by numbers;
`perKey` is the `stable` snapshot of `subs[key]` taken before iteration,
`broad` the broadcast list.  `throws l = true` means listener `l`'s callback
throws when invoked (the `catch` swallows it).  `subHook` / `broadHook`
return `false` to veto; for a per-key delivery the source then executes
`return`, leaving `notifySubs` entirely — not `continue` — while for a
broadcast delivery the `return` only leaves that `forEach` callback. -/

/-- The per-key loop: returns the ids whose callbacks were invoked, and
whether a hook veto aborted the whole notification.  A throwing callback
is invoked (it receives the notification), the exception is caught, and
iteration continues — `throws` plays no role in control flow. -/
def deliverPerKey (throws : Nat → Bool) (hook : Option (Nat → Bool)) :
    List Nat → List Nat × Bool
  | [] => ([], false)
  | l :: rest =>
    match hook with
    | some h =>
      if !(h l) then ([], true)
      else
        let (ds, ab) := deliverPerKey throws hook rest
        (l :: ds, ab)
    | none =>
      let (ds, ab) := deliverPerKey throws hook rest
      (l :: ds, ab)

/-- The broadcast `forEach`: a veto (or a throw) affects only its own
delivery. -/
def deliverBroad (hook : Option (Nat → Bool)) : List Nat → List Nat
  | [] => []
  | l :: rest =>
    match hook with
    | some h =>
      if !(h l) then deliverBroad hook rest
      else l :: deliverBroad hook rest
    | none => l :: deliverBroad hook rest

/-- One `notifySubs` call: which per-key callbacks and which broadcast
callbacks get invoked. -/
def notifySubsModel (perKey broad : List Nat) (throws : Nat → Bool)
    (subHook broadHook : Option (Nat → Bool)) : List Nat × List Nat :=
  if perKey = [] ∧ broad = [] then ([], [])
  else
    let (ds, aborted) := deliverPerKey throws subHook perKey
    if aborted then (ds, [])
    else (ds, deliverBroad broadHook broad)

/-- C7 counterexample — the interceptor hook does NOT veto only the single
delivery it returns false for: with two per-key listeners (none throwing)
and one broadcast listener, a hook vetoing listener 0 makes `notifySubs`
`return`, so listener 1 and the broadcast listener receive nothing. -/
theorem claim_C7_interceptor_counterexample :
    notifySubsModel [0, 1] [2] (fun _ => false) (some (fun l => decide (l ≠ 0))) none
      = ([], []) := by
  rfl

theorem deliverPerKey_throws_irrelevant (t t' : Nat → Bool)
    (hook : Option (Nat → Bool)) (l : List Nat) :
    deliverPerKey t hook l = deliverPerKey t' hook l := by
  induction l with
  | nil => rfl
  | cons x rest ih =>
    simp only [deliverPerKey]
    cases hook with
    | none => rw [ih]
    | some h => rw [ih]

theorem deliverPerKey_all_pass (t : Nat → Bool) (h : Nat → Bool) (l : List Nat)
    (hall : ∀ x ∈ l, h x = true) :
    deliverPerKey t (some h) l = (l, false) := by
  induction l with
  | nil => rfl
  | cons x rest ih =>
    simp only [deliverPerKey]
    rw [hall x (List.mem_cons_self x rest),
      ih (fun y hy => hall y (List.mem_cons_of_mem x hy))]
    simp

theorem deliverPerKey_none (t : Nat → Bool) (l : List Nat) :
    deliverPerKey t none l = (l, false) := by
  induction l with
  | nil => rfl
  | cons x rest ih =>
    simp only [deliverPerKey]
    rw [ih]

theorem deliverPerKey_veto (t : Nat → Bool) (h : Nat → Bool) (xs : List Nat) (x : Nat)
    (ys : List Nat) (hxs : ∀ z ∈ xs, h z = true) (hx : h x = false) :
    deliverPerKey t (some h) (xs ++ x :: ys) = (xs, true) := by
  induction xs with
  | nil =>
    rw [List.nil_append]
    simp only [deliverPerKey]
    rw [hx]
    rfl
  | cons z zs ih =>
    rw [List.cons_append]
    simp only [deliverPerKey]
    rw [hxs z (List.mem_cons_self z zs),
      ih (fun y hy => hxs y (List.mem_cons_of_mem z hy))]
    simp

theorem deliverBroad_none (l : List Nat) : deliverBroad none l = l := by
  induction l with
  | nil => rfl
  | cons x rest ih =>
    simp only [deliverBroad]
    rw [ih]

theorem deliverBroad_filter (h : Nat → Bool) (l : List Nat) :
    deliverBroad (some h) l = l.filter h := by
  induction l with
  | nil => rfl
  | cons x rest ih =>
    simp only [deliverBroad]
    cases hx : h x with
    | false =>
      rw [List.filter_cons_of_neg (by simp [hx])]
      simpa [hx] using ih
    | true =>
      rw [List.filter_cons_of_pos (by simp [hx])]
      simpa [hx] using ih

/-- C7 (amended) — notification dispatch: delivery is computed from the
snapshot lists; a throwing listener never affects which callbacks are
invoked (it is caught and logged, and every remaining listener still
receives the notification); with no interceptor, or an interceptor passing
every per-key delivery, all per-key listeners and then the broadcast
listeners are invoked; but an interceptor returning false for ONE per-key
delivery aborts the whole notification — the vetoed listener, every
remaining per-key listener and all broadcast listeners receive nothing —
while on broadcast deliveries it vetoes exactly the single deliveries it
returns false for. -/
theorem claim_C7_notification_dispatch :
    (∀ (perKey broad : List Nat) (t t' : Nat → Bool)
        (subHook broadHook : Option (Nat → Bool)),
      notifySubsModel perKey broad t subHook broadHook
        = notifySubsModel perKey broad t' subHook broadHook) ∧
    (∀ (perKey broad : List Nat) (t : Nat → Bool) (h : Nat → Bool),
      (∀ x ∈ perKey, h x = true) → ¬(perKey = [] ∧ broad = []) →
      notifySubsModel perKey broad t (some h) none = (perKey, broad)) ∧
    (∀ (perKey broad : List Nat) (t : Nat → Bool) (broadHook : Option (Nat → Bool)),
      ¬(perKey = [] ∧ broad = []) →
      notifySubsModel perKey broad t none broadHook
        = (perKey, deliverBroad broadHook broad)) ∧
    (∀ (xs : List Nat) (x : Nat) (ys : List Nat) (broad : List Nat)
        (t : Nat → Bool) (h : Nat → Bool) (broadHook : Option (Nat → Bool)),
      (∀ z ∈ xs, h z = true) → h x = false →
      notifySubsModel (xs ++ x :: ys) broad t (some h) broadHook = (xs, [])) ∧
    (∀ (broad : List Nat) (t : Nat → Bool) (h : Nat → Bool),
      ¬(broad = []) →
      notifySubsModel [] broad t none (some h) = ([], broad.filter h)) := by
  refine ⟨?_, ?_, ?_, ?_, ?_⟩
  · intro perKey broad t t' subHook broadHook
    unfold notifySubsModel
    rw [deliverPerKey_throws_irrelevant t t' subHook perKey]
  · intro perKey broad t h hall hne
    unfold notifySubsModel
    rw [if_neg hne, deliverPerKey_all_pass t h perKey hall]
    simp [deliverBroad_none]
  · intro perKey broad t broadHook hne
    unfold notifySubsModel
    rw [if_neg hne, deliverPerKey_none t perKey]
    simp
  · intro xs x ys broad t h broadHook hxs hx
    unfold notifySubsModel
    rw [if_neg (by simp), deliverPerKey_veto t h xs x ys hxs hx]
    simp
  · intro broad t h hne
    unfold notifySubsModel
    rw [if_neg (by simp [hne])]
    rw [show deliverPerKey t none [] = ([], false) from rfl]
    simp [deliverBroad_filter h broad]

theorem claim_C7_notification_dispatch_witness :
    notifySubsModel [0, 1] [2] (fun l => decide (l = 0)) (some (fun _ => true)) none
      = ([0, 1], [2]) :=
  claim_C7_notification_dispatch.2.1 [0, 1] [2] (fun l => decide (l = 0))
    (fun _ => true) (fun x _ => rfl) (by simp)

end Fetcher
